import Mathlib

/-!
Verification of the NAEC workshop notebooks (`Marsili-Curty-model.ipynb`,
`RFIM.ipynb`): a shallow embedding of the two simulation classes and the
fixed-point routine, with theorems settling the specification claims.

Real numbers (numpy floats) are modelled as `ℚ`; opinion arrays and bias
arrays are `List ℚ`; the random draws consumed by constructors and by
`time_step` are passed in explicitly as arguments, constrained exactly by
the contracts of the numpy sampling primitives that produce them.
-/

/-- Embedding of `np.sign` on scalars: `+1`, `-1`, or `0` for a zero input. -/
def npSign (x : ℚ) : ℚ := if 0 < x then 1 else if x < 0 then -1 else 0

/-! ## Social-Learning simulator (`class MarsiliCurty`) -/

/-- State of the `MarsiliCurty` object: fields as set by `__init__`. -/
structure MarsiliCurty where
  N_i : ℕ
  N_f : ℕ
  N : ℕ
  p : ℚ
  m : ℕ
  S : List ℚ
  deriving DecidableEq

namespace MarsiliCurty

/-- Embedding of `MarsiliCurty.__init__(N, z, p, m)`.  `N_i = int(N * z)`
(truncation of a nonnegative product, i.e. the floor), `N_f = N - N_i`.
The random array `S` (informed prefix drawn `±1` with `P(+1) = p`,
follower suffix drawn fair) is passed in as `draws`. -/
def init (N : ℕ) (z p : ℚ) (m : ℕ) (draws : List ℚ) : MarsiliCurty :=
  let n_i : ℕ := ⌊z * (N : ℚ)⌋.toNat
  { N_i := n_i, N_f := N - n_i, N := N, p := p, m := m, S := draws }

/-- Embedding of `compute_q`: `np.mean(self.S[self.N_i:] > 0)`.
`np.mean` of an empty slice is `nan`, modelled as `none`. -/
def compute_q (st : MarsiliCurty) : Option ℚ :=
  let followers := st.S.drop st.N_i
  if followers.length = 0 then none
  else some ((followers.countP (fun x => decide (0 < x)) : ℚ) / (followers.length : ℚ))

/-- Embedding of `compute_pi`: `np.mean(self.S > 0)`. -/
def compute_pi (st : MarsiliCurty) : Option ℚ :=
  if st.S.length = 0 then none
  else some ((st.S.countP (fun x => decide (0 < x)) : ℚ) / (st.S.length : ℚ))

/-- Embedding of `compute_informed`: `np.mean(self.S[:self.N_i] > 0)`. -/
def compute_informed (st : MarsiliCurty) : Option ℚ :=
  let informed := st.S.take st.N_i
  if informed.length = 0 then none
  else some ((informed.countP (fun x => decide (0 < x)) : ℚ) / (informed.length : ℚ))

/-- Embedding of `time_step`.  The two random draws are arguments:
`follower` is `np.random.randint(low=self.N_i, high=self.N)` (so the
caller's contract is `N_i ≤ follower < N`) and `group` is
`np.random.choice(self.N, size=self.m)` (a list of `m` indices `< N`,
drawn with replacement).  The chosen follower's opinion is set to
`np.sign` of the mean of the polled opinions. -/
def time_step (st : MarsiliCurty) (follower : ℕ) (group : List ℕ) : MarsiliCurty :=
  let group_choices := group.map (fun j => st.S.getD j 0)
  let avg_group_choice := group_choices.sum / (group_choices.length : ℚ)
  { st with S := st.S.set follower (npSign avg_group_choice) }

/-- Iterated `time_step` (the mutation part of `iterate(T)`): one
`(follower, group)` pair of random draws per step. -/
def run (st : MarsiliCurty) (moves : List (ℕ × List ℕ)) : MarsiliCurty :=
  moves.foldl (fun s mv => s.time_step mv.1 mv.2) st

end MarsiliCurty

/-! ## Random-Field Ising simulator (`class RFIM`) -/

/-- State of the `RFIM` object: fields as set by `__init__`.  `S` is the
random `±1` opinion array and `h` the Laplace-distributed bias array,
both passed to the constructor's caller by the random source. -/
structure RFIM where
  J : ℚ
  F : ℚ
  N : ℕ
  S : List ℚ
  h : List ℚ
  delta : ℚ
  deriving DecidableEq

namespace RFIM

/-- Embedding of `RFIM.m`: `np.mean(self.S)`. -/
def m (st : RFIM) : ℚ := st.S.sum / (st.N : ℚ)

/-- Embedding of `RFIM.p(i)`: `self.h[i] + self.F + self.J * local_m`
with `local_m = (self.S.sum() - self.S[i]) / (self.N - 1)`. -/
def p (st : RFIM) (i : ℕ) : ℚ :=
  let local_m := (st.S.sum - st.S.getD i 0) / ((st.N : ℚ) - 1)
  st.h.getD i 0 + st.F + st.J * local_m

/-- Embedding of `RFIM.flip(i)`: if `self.S[i] * np.sign(self.p(i)) == -1`
the opinion is negated and `1` returned, otherwise nothing changes and
`0` is returned. -/
def flip (st : RFIM) (i : ℕ) : RFIM × ℕ :=
  let should_flip := st.S.getD i 0 * npSign (st.p i)
  if should_flip = -1 then
    ({ st with S := st.S.set i (-(st.S.getD i 0)) }, 1)
  else (st, 0)

/-- The body of `RFIM.sweep`'s `for` loop, processing a given list of
agent indices in order and accumulating the flip count. -/
def sweepFrom (st : RFIM) : List ℕ → RFIM × ℕ
  | [] => (st, 0)
  | i :: rest =>
    let f := st.flip i
    let r := f.1.sweepFrom rest
    (r.1, f.2 + r.2)

/-- Embedding of `RFIM.sweep`.  The loop in the source is
`for i in range(N)` where `N` is the *module-level global* `N` of the
notebook, not `self.N`; the global is therefore an explicit argument
`gN` here.  (The notebook sets the global `N = 500` while `av_sim` is
built with `N = 1000`.) -/
def sweep (gN : ℕ) (st : RFIM) : RFIM × ℕ :=
  st.sweepFrom (List.range gN)

/-- Embedding of `RFIM.equilibrate`: sweep, then keep sweeping while the
flip count is positive.  The loop in the source is unbounded; here it
carries explicit fuel and returns `none` when the fuel runs out, so
termination is the statement that some fuel returns `some`. -/
def equilibrate (gN : ℕ) : ℕ → RFIM → Option RFIM
  | 0, _ => none
  | fuel + 1, st =>
    let r := sweep gN st
    if r.2 = 0 then some r.1 else equilibrate gN fuel r.1

end RFIM

/-! ## Fixed-point solver (`fixed_point` and its inner `F_z`) -/

/-- Embedding of the inner function `F_z` of `fixed_point`:
`pi = z*p + (1-z)*q`, then the sum of `binom(m, l) * pi**l * (1-pi)**(m-l)`
for `l in range((m+1)//2, m+1)`. -/
def F_z (z p : ℚ) (m : ℕ) (q : ℚ) : ℚ :=
  let pi := z * p + (1 - z) * q
  ∑ l in Finset.Ico ((m + 1) / 2) (m + 1), (m.choose l : ℚ) * pi ^ l * (1 - pi) ^ (m - l)

/-- Bisection on a sign-change bracket, the root-locating core of the
`brentq` model below (fixed iteration depth). -/
def bisect (f : ℚ → ℚ) : ℚ → ℚ → ℕ → ℚ
  | a, b, 0 => (a + b) / 2
  | a, b, d + 1 =>
    let c := (a + b) / 2
    if f a * f c ≤ 0 then bisect f a c d else bisect f c b d

/-- Modelled from the spec: `scipy.optimize.brentq`, the externally
supplied bracketed scalar root-finder (§6 of the spec), is not part of
this repository.  Per its documented contract it raises (`ValueError`,
the spec's `RootBracketError`) exactly when `f(a)` and `f(b)` do not
bracket a sign change, i.e. when `f(a) * f(b) > 0`, and otherwise
returns a root located inside the bracket; the located value is modelled
by bisection. -/
def brentqModel (f : ℚ → ℚ) (a b : ℚ) : Except Unit ℚ :=
  if 0 < f a * f b then Except.error () else Except.ok (bisect f a b 30)

/-- Embedding of `fixed_point(z, p, m, n_its)`: iterate `q_0 ← F_z(q_0)`
from `0` and `q_1 ← F_z(q_1)` from `1` for `n_its` rounds, then root-find
`F_z(q) - q` on `[q_0 + 0.1, q_1 - 0.1]` and return `(q_0, q_1, q_mid)`. -/
def fixed_point (z p : ℚ) (m : ℕ) (n_its : ℕ) : Except Unit (ℚ × ℚ × ℚ) :=
  let q_0 := (fun q => F_z z p m q)^[n_its] 0
  let q_1 := (fun q => F_z z p m q)^[n_its] 1
  match brentqModel (fun q => F_z z p m q - q) (q_0 + 1 / 10) (q_1 - 1 / 10) with
  | Except.error e => Except.error e
  | Except.ok q_mid => Except.ok (q_0, q_1, q_mid)

/-! ## Analysis definitions (proof devices, not part of the source) -/

/-- The upper tail of the binomial distribution with `m` trials and success
probability `x`: the sum computed by the source's `F_z` once `pi` is fixed,
with a general lower summation bound `k`. -/
def tailSum (m k : ℕ) (x : ℚ) : ℚ :=
  ∑ l in Finset.Ico k (m + 1), (m.choose l : ℚ) * x ^ l * (1 - x) ^ (m - l)

/-- The probability that at least `k` of `m` independent Bernoulli(`x`)
draws are positive, written as a sum over all outcomes: an outcome is the
set `A` of draws that came out positive, with weight `x^|A| (1-x)^(m-|A|)`. -/
def atLeastProb (m k : ℕ) (x : ℚ) : ℚ :=
  ∑ A in (Finset.univ : Finset (Finset (Fin m))).filter (fun A => k ≤ A.card),
    x ^ A.card * (1 - x) ^ (m - A.card)

/-- Ising energy of an opinion list `S` under coupling `J`, field `F`
and biases `hl` (symmetric mean-field couplings `J/(N-1)` plus local
fields `hl i + F`). -/
def energyOf (J F : ℚ) (N : ℕ) (hl S : List ℚ) : ℚ :=
  -(∑ i in Finset.range S.length, (hl.getD i 0 + F) * S.getD i 0)
    - J / (2 * ((N : ℚ) - 1)) *
        ((S.sum) ^ 2 - ∑ i in Finset.range S.length, (S.getD i 0) ^ 2)

/-- Ising energy of an RFIM state.  Every accepted `flip` strictly
decreases it, which is what bounds the number of sweeps `equilibrate` can
make. -/
def RFIM.energy (st : RFIM) : ℚ := energyOf st.J st.F st.N st.h st.S

/-- Well-formedness of an RFIM state, as guaranteed by `__init__`:
array lengths match `N`, the population has at least two agents (the
spec's validity condition for the local field), and every opinion is
`±1`. -/
abbrev RFIM.WF (st : RFIM) : Prop :=
  st.S.length = st.N ∧ st.h.length = st.N ∧ 2 ≤ st.N ∧ ∀ x ∈ st.S, x = 1 ∨ x = -1

/-- Boolean encoding of a `±1` opinion list, used to count spin
configurations. -/
def encodeSpins (n : ℕ) (S : List ℚ) : Fin n → Bool :=
  fun i => decide (S.getD i 0 = 1)

/-! ## Concrete states used by counterexamples and witnesses -/

/-- A reachable Social-Learning state: `N = 2`, `z = 0.5` (one informed
agent, one follower), `m = 2`, with draws `S = [+1, -1]`. -/
def mcTie : MarsiliCurty := MarsiliCurty.init 2 (1 / 2) (1 / 2) 2 [1, -1]

/-- A valid construction with `z = 1`: every agent is informed, the
follower slice is empty. -/
def mcNoFollowers : MarsiliCurty := MarsiliCurty.init 1 1 (1 / 2) 3 [1]

/-- A small Social-Learning state with one informed agent and two
followers. -/
def mcFrameEx : MarsiliCurty := MarsiliCurty.init 3 (1 / 3) (1 / 2) 2 [1, 1, -1]

/-- An RFIM state with `self.N = 4` agents, all misaligned with their
(positive) local fields. -/
def rfimSkew : RFIM := { J := 0, F := 0, N := 4, S := [-1, -1, -1, -1], h := [5, 5, 5, 5], delta := 1 }

/-- A well-formed two-agent RFIM state. -/
def rfimEq : RFIM := { J := 0, F := 0, N := 2, S := [1, -1], h := [1, -1], delta := 1 }

/-- A two-agent decoupled (`J = 0`) RFIM state whose first agent has
`h[0] + F = 0`. -/
def rfimZeroField : RFIM := { J := 0, F := 0, N := 2, S := [1, -1], h := [0, 1], delta := 1 }

/-- A two-agent RFIM state whose first agent has zero local field. -/
def rfimZeroP : RFIM := { J := 0, F := 0, N := 2, S := [1, 1], h := [0, 0], delta := 1 }

/-! ## List helper lemmas -/

lemma getD_set_same {l : List ℚ} {i : ℕ} (a : ℚ) (h : i < l.length) :
    (l.set i a).getD i 0 = a := by
  simp [List.getD_eq_getElem?_getD, List.getElem?_set_self h]

lemma getD_set_other {l : List ℚ} {i j : ℕ} (a : ℚ) (h : i ≠ j) :
    (l.set i a).getD j 0 = l.getD j 0 := by
  simp [List.getD_eq_getElem?_getD, List.getElem?_set_ne h]

lemma countP_pos_eq_countP_one (l : List ℚ)
    (h : ∀ x ∈ l, x = 1 ∨ x = -1 ∨ x = 0) :
    l.countP (fun x => decide (0 < x)) = l.countP (fun x => decide (x = 1)) := by
  induction l with
  | nil => rfl
  | cons a t ih =>
    rw [List.countP_cons, List.countP_cons, ih fun x hx => h x (List.mem_cons_of_mem a hx)]
    rcases h a (List.mem_cons_self a t) with ha | ha | ha <;> subst ha <;> norm_num

/-! ## Social-Learning lemmas -/

lemma mc_time_step_N_i (st : MarsiliCurty) (f : ℕ) (g : List ℕ) :
    (st.time_step f g).N_i = st.N_i := rfl

lemma mc_time_step_frame_one (st : MarsiliCurty) (f : ℕ) (g : List ℕ)
    {j : ℕ} (hj : j ≠ f) :
    (st.time_step f g).S.getD j 0 = st.S.getD j 0 :=
  getD_set_other _ fun e => hj e.symm

lemma mc_run_informed_frame (moves : List (ℕ × List ℕ)) :
    ∀ st : MarsiliCurty, (∀ mv ∈ moves, st.N_i ≤ mv.1) →
      ∀ j < st.N_i, (st.run moves).S.getD j 0 = st.S.getD j 0 := by
  induction moves with
  | nil => intro st _ j _; rfl
  | cons mv t ih =>
    intro st hmv j hj
    have h1 : (st.time_step mv.1 mv.2).S.getD j 0 = st.S.getD j 0 :=
      mc_time_step_frame_one st mv.1 mv.2
        (fun e => absurd (hmv mv (List.mem_cons_self mv t)) (by omega))
    have h2 := ih (st.time_step mv.1 mv.2)
      (fun mv' hmv' => hmv mv' (List.mem_cons_of_mem mv hmv')) j hj
    calc (st.run (mv :: t)).S.getD j 0
        = ((st.time_step mv.1 mv.2).run t).S.getD j 0 := rfl
      _ = (st.time_step mv.1 mv.2).S.getD j 0 := h2
      _ = st.S.getD j 0 := h1

/-- C1: the claim "every entry of `S` is exactly `+1` or `-1` after
construction and after any number of `Step` calls" fails on the code:
`time_step` writes `np.sign` of the polled mean into `S`, and
`np.sign(0) = 0`.  In the reachable state `mcTie` (two agents, one
informed with opinion `+1`, one follower with opinion `-1`, `m = 2`),
the step that polls the group `[0, 1]` gets a tied poll with mean `0`
and stores `0` — neither `+1` nor `-1` — at the follower's index.  The
notebook's own model description says every choice is `S_i = ±1`, so the
code contradicts its documentation here. -/
theorem mc_tie_step_writes_zero :
    ¬ (((mcTie.time_step 1 [0, 1]).S.getD 1 0 = 1) ∨
       ((mcTie.time_step 1 [0, 1]).S.getD 1 0 = -1)) := by
  norm_num [mcTie, MarsiliCurty.init, MarsiliCurty.time_step, npSign]

/-- C4: `time_step` rewrites `S` at exactly the one index drawn by
`np.random.randint(self.N_i, self.N)` — an index in the follower range
`[N_i, N)` by that primitive's contract — leaving every other index
unchanged, so the informed prefix `S[0:N_i]` is unchanged by one step
and, consequently, by any sequence of steps. -/
theorem mc_time_step_single_follower_frame (st : MarsiliCurty) (follower : ℕ)
    (group : List ℕ) (moves : List (ℕ × List ℕ))
    (hlen : st.S.length = st.N)
    (hf₁ : st.N_i ≤ follower) (hf₂ : follower < st.N)
    (hmv : ∀ mv ∈ moves, st.N_i ≤ mv.1 ∧ mv.1 < st.N) :
    ((st.time_step follower group).S =
      st.S.set follower
        (npSign ((group.map (fun j => st.S.getD j 0)).sum /
          ((group.map (fun j => st.S.getD j 0)).length : ℚ)))) ∧
    (∀ j, j ≠ follower → (st.time_step follower group).S.getD j 0 = st.S.getD j 0) ∧
    (∀ j, j < st.N_i → (st.time_step follower group).S.getD j 0 = st.S.getD j 0) ∧
    (∀ j, j < st.N_i → (st.run moves).S.getD j 0 = st.S.getD j 0) := by
  refine ⟨rfl, fun j hj => mc_time_step_frame_one st follower group hj, ?_, ?_⟩
  · intro j hj
    exact mc_time_step_frame_one st follower group (by omega)
  · exact mc_run_informed_frame moves st (fun mv hmv' => (hmv mv hmv').1)

/-- Witness for C4 at a concrete reachable state and concrete random
draws. -/
theorem mc_time_step_single_follower_frame_witness :
    (mcFrameEx.S.length = mcFrameEx.N ∧ mcFrameEx.N_i ≤ 2 ∧ 2 < mcFrameEx.N ∧
      ∀ mv ∈ [((1 : ℕ), [0]), ((2 : ℕ), [0, 2])], mcFrameEx.N_i ≤ mv.1 ∧ mv.1 < mcFrameEx.N) ∧
    ((mcFrameEx.time_step 2 [0, 1]).S =
      mcFrameEx.S.set 2
        (npSign (([0, 1].map (fun j => mcFrameEx.S.getD j 0)).sum /
          (([0, 1].map (fun j => mcFrameEx.S.getD j 0)).length : ℚ)))) ∧
    (∀ j, j ≠ 2 → (mcFrameEx.time_step 2 [0, 1]).S.getD j 0 = mcFrameEx.S.getD j 0) ∧
    (∀ j, j < mcFrameEx.N_i → (mcFrameEx.time_step 2 [0, 1]).S.getD j 0 = mcFrameEx.S.getD j 0) ∧
    (∀ j, j < mcFrameEx.N_i →
      (mcFrameEx.run [((1 : ℕ), [0]), ((2 : ℕ), [0, 2])]).S.getD j 0 = mcFrameEx.S.getD j 0) := by
  have hNi : mcFrameEx.N_i = 1 := by norm_num [mcFrameEx, MarsiliCurty.init]
  have h : mcFrameEx.S.length = mcFrameEx.N ∧ mcFrameEx.N_i ≤ 2 ∧ 2 < mcFrameEx.N ∧
      ∀ mv ∈ [((1 : ℕ), [0]), ((2 : ℕ), [0, 2])], mcFrameEx.N_i ≤ mv.1 ∧ mv.1 < mcFrameEx.N := by
    refine ⟨by norm_num [mcFrameEx, MarsiliCurty.init], by omega, by norm_num [mcFrameEx, MarsiliCurty.init], ?_⟩
    intro mv hmv
    simp only [List.mem_cons, List.not_mem_nil, or_false] at hmv
    rcases hmv with h | h <;> subst h <;>
      constructor <;> simp [hNi, mcFrameEx, MarsiliCurty.init]
  exact ⟨h, mc_time_step_single_follower_frame mcFrameEx 2 [0, 1]
    [((1 : ℕ), [0]), ((2 : ℕ), [0, 2])] h.1 h.2.1 h.2.2.1 h.2.2.2⟩

/-- C2: the claim "a single call to `Sweep()` attempts `TryFlip(i)` for
every index `i` from `0` to `N-1`" fails on the code: the loop is
`for i in range(N)` where `N` is the notebook's module-level global (500
when `av_sim` with `self.N = 1000` is swept), not `self.N`.  Concretely:
in `rfimSkew` (`self.N = 4`) every agent is misaligned with its local
field, yet a sweep with the global set to `2` flips only agents `0` and
`1` and returns `2`, even though `flip(2)` would have flipped.  The
`sweep` docstring ("Goes through all N agents") documents the claimed
behaviour, so the code contradicts its own documentation. -/
theorem rfim_sweep_uses_global_count :
    RFIM.sweep 2 rfimSkew = ({ rfimSkew with S := [1, 1, -1, -1] }, 2) ∧
    rfimSkew.N = 4 ∧ (rfimSkew.flip 2).2 = 1 := by
  refine ⟨?_, rfl, ?_⟩ <;>
    norm_num [RFIM.sweep, RFIM.sweepFrom, RFIM.flip, RFIM.p, npSign, rfimSkew,
      List.range_succ]

/-- C10: if the local field is exactly zero — or, more generally, if the
current opinion agrees with the sign of the local field — then `flip`
reports "unchanged" and leaves the whole state (in particular `S`, `h`,
`F`, `J`) unmodified: `np.sign(0) = 0` makes `should_flip = 0 ≠ -1`, so a
zero local field deterministically keeps the agent's current opinion. -/
theorem rfim_flip_keeps_agreeing_opinion (st : RFIM) (i : ℕ)
    (h : st.p i = 0 ∨ st.S.getD i 0 = npSign (st.p i)) :
    st.flip i = (st, 0) := by
  have h0 : ¬ (st.S.getD i 0 * npSign (st.p i) = -1) := by
    rcases h with h | h
    · rw [h]; norm_num [npSign]
    · rw [h]
      intro e
      have := mul_self_nonneg (npSign (st.p i))
      rw [e] at this
      norm_num at this
  simp only [RFIM.flip]
  rw [if_neg h0]

/-- Witness for C10 at a concrete state with a zero local field. -/
theorem rfim_flip_keeps_agreeing_opinion_witness :
    (rfimZeroP.p 0 = 0 ∨ rfimZeroP.S.getD 0 0 = npSign (rfimZeroP.p 0)) ∧
    rfimZeroP.flip 0 = (rfimZeroP, 0) := by
  have hp : rfimZeroP.p 0 = 0 := by norm_num [rfimZeroP, RFIM.p]
  exact ⟨Or.inl hp, rfim_flip_keeps_agreeing_opinion rfimZeroP 0 (Or.inl hp)⟩

/-- C9, counterexample: the claim quantifies over every valid parameter
choice, and `z = 1` is valid (`0 ≤ z ≤ 1`); but then the follower slice
is empty, `np.mean` of an empty slice is `nan` (modelled `none`), and
`compute_q` does not return a fraction in `[0,1]`. -/
theorem mc_compute_q_no_followers : mcNoFollowers.compute_q = none := by
  norm_num [mcNoFollowers, MarsiliCurty.init, MarsiliCurty.compute_q]

/-- C9, amended: on every reachable state (entries lie in `{+1, -1, 0}`)
that has at least one follower, `compute_q` returns exactly the fraction
of follower entries equal to `+1` (the code's `> 0` test agrees with
`= +1` on reachable entries), a pure value in `[0,1]`; and `compute_pi`
likewise returns a value in `[0,1]`. -/
theorem mc_compute_q_fraction (st : MarsiliCurty)
    (hent : ∀ x ∈ st.S, x = 1 ∨ x = -1 ∨ x = 0)
    (hf : st.N_i < st.S.length) :
    ∃ r, st.compute_q = some r ∧
      r = (((st.S.drop st.N_i).countP (fun x => decide (x = 1)) : ℚ) /
        ((st.S.drop st.N_i).length : ℚ)) ∧
      0 ≤ r ∧ r ≤ 1 ∧
      ∃ r', st.compute_pi = some r' ∧ 0 ≤ r' ∧ r' ≤ 1 := by
  have hd : (st.S.drop st.N_i).length = st.S.length - st.N_i := List.length_drop _ _
  have hne : (st.S.drop st.N_i).length ≠ 0 := by omega
  have hcnt : (st.S.drop st.N_i).countP (fun x => decide (0 < x)) =
      (st.S.drop st.N_i).countP (fun x => decide (x = 1)) :=
    countP_pos_eq_countP_one _ (fun x hx => hent x (List.drop_subset _ _ hx))
  have hlenpos : (0 : ℚ) < ((st.S.drop st.N_i).length : ℚ) := by
    exact_mod_cast Nat.pos_of_ne_zero hne
  have hSne : st.S.length ≠ 0 := by omega
  have hSpos : (0 : ℚ) < (st.S.length : ℚ) := by
    exact_mod_cast Nat.pos_of_ne_zero hSne
  have hq : st.compute_q = some
      ((((st.S.drop st.N_i).countP (fun x => decide (x = 1))) : ℚ) /
        ((st.S.drop st.N_i).length : ℚ)) := by
    simp only [MarsiliCurty.compute_q]
    rw [if_neg hne, hcnt]
  have hpi : st.compute_pi = some
      (((st.S.countP (fun x => decide (0 < x))) : ℚ) / (st.S.length : ℚ)) := by
    simp only [MarsiliCurty.compute_pi]
    rw [if_neg hSne]
  refine ⟨_, hq, rfl, by positivity, ?_, _, hpi, by positivity, ?_⟩
  · rw [div_le_one hlenpos]
    exact_mod_cast List.countP_le_length (fun x => decide (x = 1))
  · rw [div_le_one hSpos]
    exact_mod_cast List.countP_le_length (fun x => decide (0 < x))

/-- Witness for the amended C9 at a concrete reachable state. -/
theorem mc_compute_q_fraction_witness :
    ((∀ x ∈ mcFrameEx.S, x = 1 ∨ x = -1 ∨ x = 0) ∧ mcFrameEx.N_i < mcFrameEx.S.length) ∧
    ∃ r, mcFrameEx.compute_q = some r ∧
      r = (((mcFrameEx.S.drop mcFrameEx.N_i).countP (fun x => decide (x = 1)) : ℚ) /
        ((mcFrameEx.S.drop mcFrameEx.N_i).length : ℚ)) ∧
      0 ≤ r ∧ r ≤ 1 ∧
      ∃ r', mcFrameEx.compute_pi = some r' ∧ 0 ≤ r' ∧ r' ≤ 1 := by
  have h1 : ∀ x ∈ mcFrameEx.S, x = 1 ∨ x = -1 ∨ x = 0 := by
    intro x hx
    simp only [mcFrameEx, MarsiliCurty.init, List.mem_cons, List.not_mem_nil, or_false] at hx
    rcases hx with h | h | h <;> subst h <;> norm_num
  have h2 : mcFrameEx.N_i < mcFrameEx.S.length := by
    norm_num [mcFrameEx, MarsiliCurty.init]
  exact ⟨⟨h1, h2⟩, mc_compute_q_fraction mcFrameEx h1 h2⟩

/-! ## Binomial tail lemmas -/

lemma F_z_eq_tailSum (z p : ℚ) (m : ℕ) (q : ℚ) :
    F_z z p m q = tailSum m ((m + 1) / 2) (z * p + (1 - z) * q) := rfl

lemma tailSum_k_zero (m : ℕ) (x : ℚ) : tailSum m 0 x = 1 := by
  calc tailSum m 0 x
      = ∑ l in Finset.range (m + 1), x ^ l * (1 - x) ^ (m - l) * (m.choose l : ℚ) := by
        rw [tailSum, ← Finset.range_eq_Ico]
        exact Finset.sum_congr rfl fun l _ => by ring
    _ = (x + (1 - x)) ^ m := (add_pow x (1 - x) m).symm
    _ = 1 := by norm_num

lemma tailSum_split (m k : ℕ) (x : ℚ) (h : k ≤ m) :
    tailSum m k x = (m.choose k : ℚ) * x ^ k * (1 - x) ^ (m - k) + tailSum m (k + 1) x := by
  rw [tailSum, tailSum, Finset.sum_eq_sum_Ico_succ_bot (by omega : k < m + 1)]

lemma tailSum_too_big (m k : ℕ) (x : ℚ) (h : m + 1 ≤ k) : tailSum m k x = 0 := by
  rw [tailSum, Finset.Ico_eq_empty (by omega), Finset.sum_empty]

lemma tailSum_nonneg (m k : ℕ) {x : ℚ} (hx0 : 0 ≤ x) (hx1 : x ≤ 1) :
    0 ≤ tailSum m k x := by
  refine Finset.sum_nonneg fun l _ => ?_
  have h1 : (0 : ℚ) ≤ 1 - x := by linarith
  positivity

lemma tailSum_anti_k (m k : ℕ) {x : ℚ} (hx0 : 0 ≤ x) (hx1 : x ≤ 1) :
    tailSum m (k + 1) x ≤ tailSum m k x := by
  rcases le_or_lt k m with h | h
  · rw [tailSum_split m k x h]
    have h1 : (0 : ℚ) ≤ 1 - x := by linarith
    have : (0 : ℚ) ≤ (m.choose k : ℚ) * x ^ k * (1 - x) ^ (m - k) := by positivity
    linarith
  · rw [tailSum_too_big m k x (by omega), tailSum_too_big m (k + 1) x (by omega)]

lemma tailSum_le_one (m k : ℕ) {x : ℚ} (hx0 : 0 ≤ x) (hx1 : x ≤ 1) :
    tailSum m k x ≤ 1 := by
  induction k with
  | zero => rw [tailSum_k_zero]
  | succ k ih => exact le_trans (tailSum_anti_k m k hx0 hx1) ih

lemma tailSum_succ (m k : ℕ) (x : ℚ) :
    tailSum (m + 1) (k + 1) x = x * tailSum m k x + (1 - x) * tailSum m (k + 1) x := by
  rcases lt_or_le m k with h | h
  · rw [tailSum_too_big (m + 1) (k + 1) x (by omega), tailSum_too_big m k x (by omega),
      tailSum_too_big m (k + 1) x (by omega)]
    ring
  · have e1 : tailSum (m + 1) (k + 1) x =
        ∑ i in Finset.range (m + 1 - k),
          ((m.choose (k + i) : ℚ) + (m.choose (k + 1 + i) : ℚ)) *
            x ^ (k + 1 + i) * (1 - x) ^ (m - k - i) := by
      rw [tailSum, Finset.sum_Ico_eq_sum_range]
      have hn : m + 1 + 1 - (k + 1) = m + 1 - k := by omega
      rw [hn]
      refine Finset.sum_congr rfl fun i hi => ?_
      have hi' : i < m + 1 - k := Finset.mem_range.mp hi
      have hc : (m + 1).choose (k + 1 + i) = m.choose (k + i) + m.choose (k + 1 + i) := by
        have := Nat.choose_succ_succ m (k + i)
        have e : k + 1 + i = (k + i) + 1 := by omega
        rw [e, this]
      have he : m + 1 - (k + 1 + i) = m - k - i := by omega
      rw [hc, he]
      push_cast
      ring
    have e2 : x * tailSum m k x =
        ∑ i in Finset.range (m + 1 - k),
          (m.choose (k + i) : ℚ) * x ^ (k + 1 + i) * (1 - x) ^ (m - k - i) := by
      rw [tailSum, Finset.mul_sum, Finset.sum_Ico_eq_sum_range]
      refine Finset.sum_congr rfl fun i hi => ?_
      have hi' : i < m + 1 - k := Finset.mem_range.mp hi
      have he : m - (k + i) = m - k - i := by omega
      rw [he]
      ring
    have e3 : (1 - x) * tailSum m (k + 1) x =
        ∑ i in Finset.range (m - k),
          (m.choose (k + 1 + i) : ℚ) * x ^ (k + 1 + i) * (1 - x) ^ (m - k - i) := by
      rw [tailSum, Finset.mul_sum, Finset.sum_Ico_eq_sum_range]
      have hn : m + 1 - (k + 1) = m - k := by omega
      rw [hn]
      refine Finset.sum_congr rfl fun i hi => ?_
      have hi' : i < m - k := Finset.mem_range.mp hi
      have key : ∀ (c : ℚ) (a b : ℕ), b + 1 = a →
          (1 - x) * (c * x ^ (k + 1 + i) * (1 - x) ^ b) =
            c * x ^ (k + 1 + i) * (1 - x) ^ a := by
        rintro c a b rfl
        rw [pow_succ]
        ring
      exact key _ _ _ (by omega)
    have e4 : ∑ i in Finset.range (m + 1 - k),
          (m.choose (k + 1 + i) : ℚ) * x ^ (k + 1 + i) * (1 - x) ^ (m - k - i) =
        ∑ i in Finset.range (m - k),
          (m.choose (k + 1 + i) : ℚ) * x ^ (k + 1 + i) * (1 - x) ^ (m - k - i) := by
      have hn : m + 1 - k = (m - k) + 1 := by omega
      rw [hn, Finset.sum_range_succ]
      have hz : m.choose (k + 1 + (m - k)) = 0 :=
        Nat.choose_eq_zero_of_lt (by omega)
      rw [hz]
      push_cast
      ring
    rw [e1, e2, e3, ← e4, ← Finset.sum_add_distrib]
    refine Finset.sum_congr rfl fun i _ => ?_
    ring

lemma tailSum_mono (m : ℕ) : ∀ k : ℕ, ∀ {x y : ℚ},
    0 ≤ x → x ≤ y → y ≤ 1 → tailSum m k x ≤ tailSum m k y := by
  induction m with
  | zero =>
    intro k x y hx hxy hy1
    match k with
    | 0 => rw [tailSum_k_zero, tailSum_k_zero]
    | k + 1 => rw [tailSum_too_big 0 (k + 1) x (by omega), tailSum_too_big 0 (k + 1) y (by omega)]
  | succ m ih =>
    intro k x y hx hxy hy1
    match k with
    | 0 => rw [tailSum_k_zero, tailSum_k_zero]
    | k + 1 =>
      rw [tailSum_succ, tailSum_succ]
      have hx1 : x ≤ 1 := le_trans hxy hy1
      have hy0 : 0 ≤ y := le_trans hx hxy
      have A1 : tailSum m k x ≤ tailSum m k y := ih k hx hxy hy1
      have A2 : tailSum m (k + 1) x ≤ tailSum m (k + 1) y := ih (k + 1) hx hxy hy1
      have B : tailSum m (k + 1) y ≤ tailSum m k y := tailSum_anti_k m k hy0 hy1
      have P1 : 0 ≤ x * (tailSum m k y - tailSum m k x) :=
        mul_nonneg hx (by linarith)
      have P2 : 0 ≤ (1 - x) * (tailSum m (k + 1) y - tailSum m (k + 1) x) :=
        mul_nonneg (by linarith) (by linarith)
      have P3 : 0 ≤ (y - x) * (tailSum m k y - tailSum m (k + 1) y) :=
        mul_nonneg (by linarith) (by linarith)
      nlinarith [P1, P2, P3]

lemma filter_card_ge_eq_biUnion (m k : ℕ) :
    (Finset.univ : Finset (Finset (Fin m))).filter (fun A => k ≤ A.card) =
      (Finset.Icc k m).biUnion
        (fun j => (Finset.univ : Finset (Finset (Fin m))).filter (fun A => A.card = j)) := by
  ext A
  simp only [Finset.mem_filter, Finset.mem_univ, true_and, Finset.mem_biUnion, Finset.mem_Icc]
  constructor
  · intro hk
    exact ⟨A.card, ⟨hk, le_trans (Finset.card_le_univ A) (by simp)⟩, rfl⟩
  · rintro ⟨j, ⟨hj, _⟩, hc⟩
    omega

lemma atLeastProb_eq_tailSum (m k : ℕ) (x : ℚ) : atLeastProb m k x = tailSum m k x := by
  have hdisj : (↑(Finset.Icc k m) : Set ℕ).PairwiseDisjoint
      (fun j => (Finset.univ : Finset (Finset (Fin m))).filter (fun A => A.card = j)) := by
    intro i _ j _ hij
    simp only [Function.onFun]
    rw [Finset.disjoint_left]
    intro A hA hA'
    simp only [Finset.mem_filter] at hA hA'
    exact hij (hA.2 ▸ hA'.2.symm ▸ rfl)
  rw [atLeastProb, filter_card_ge_eq_biUnion, Finset.sum_biUnion hdisj]
  have inner : ∀ j ∈ Finset.Icc k m,
      (∑ A in (Finset.univ : Finset (Finset (Fin m))).filter (fun A => A.card = j),
        x ^ A.card * (1 - x) ^ (m - A.card)) =
      (m.choose j : ℚ) * x ^ j * (1 - x) ^ (m - j) := by
    intro j _
    have hterm : ∀ A ∈ (Finset.univ : Finset (Finset (Fin m))).filter (fun A => A.card = j),
        x ^ A.card * (1 - x) ^ (m - A.card) = x ^ j * (1 - x) ^ (m - j) := by
      intro A hA
      have : A.card = j := (Finset.mem_filter.mp hA).2
      rw [this]
    rw [Finset.sum_congr rfl hterm, Finset.sum_const]
    have hcard : ((Finset.univ : Finset (Finset (Fin m))).filter (fun A => A.card = j)).card =
        m.choose j := by
      have e : (Finset.univ : Finset (Finset (Fin m))).filter (fun A => A.card = j) =
          Finset.powersetCard j (Finset.univ : Finset (Fin m)) := by
        rw [Finset.powersetCard_eq_filter, Finset.powerset_univ]
      rw [e, Finset.card_powersetCard]
      simp
    rw [hcard, nsmul_eq_mul]
    ring
  rw [Finset.sum_congr rfl inner, tailSum, Nat.Ico_succ_right]

/-- C5: the inner `F_z` of `fixed_point` computes `pi = z*p + (1-z)*q`
and returns the sum of `C(m,l) * pi^l * (1-pi)^(m-l)` for `l` from
`⌈m/2⌉ = (m+1)//2` up to `m` — which is exactly the probability that at
least `⌈m/2⌉` of `m` independent Bernoulli(`pi`) draws are positive
(`atLeastProb` sums the weight of every outcome, an outcome being the
set of positive draws). -/
theorem F_z_is_majority_probability (z p : ℚ) (m : ℕ) (q : ℚ) :
    F_z z p m q =
      (∑ l in Finset.Icc ((m + 1) / 2) m,
        (m.choose l : ℚ) * (z * p + (1 - z) * q) ^ l *
          (1 - (z * p + (1 - z) * q)) ^ (m - l)) ∧
    F_z z p m q = atLeastProb m ((m + 1) / 2) (z * p + (1 - z) * q) := by
  constructor
  · rw [F_z_eq_tailSum, tailSum, Nat.Ico_succ_right]
  · rw [F_z_eq_tailSum, atLeastProb_eq_tailSum]

/-- C8: for fixed `z, p, m`, the self-consistency map `q ↦ F_z(q)` of the
source is monotone non-decreasing in `q` on `[0,1]`; and for `z = 1` the
value `F_z(q)` is the same for every `q` (the map is independent of `q`,
since `pi = 1·p + 0·q = p`), namely the probability that at least
`⌈m/2⌉ = (m+1)/2` of `m` independent Bernoulli(`p`) draws succeed,
formalised independently of the source's formula as the outcome-set sum
`atLeastProb` (an outcome is the set of successful draws; cf. claim C5's
`atLeastProb_eq_tailSum`).  The hypotheses ask only `z, p ∈ [0,1]` and
`0 ≤ q ≤ q' ≤ 1`, a superset of the spec's valid range `p ∈ (0,1)`.
Monotonicity holds because the binomial upper tail `tailSum` is monotone
in the success probability (`tailSum_mono`, an induction on `m` through
the Pascal recursion `tailSum_succ`) and `q ↦ z·p + (1-z)·q` is monotone
with values in `[0,1]` there. -/
theorem F_z_monotone_and_constant_at_z_one (z p : ℚ) (m : ℕ) (q q' : ℚ)
    (hz0 : 0 ≤ z) (hz1 : z ≤ 1) (hp0 : 0 ≤ p) (hp1 : p ≤ 1)
    (hq0 : 0 ≤ q) (hqq : q ≤ q') (hq1 : q' ≤ 1) :
    F_z z p m q ≤ F_z z p m q' ∧
    (∀ q₁ q₂ : ℚ, F_z 1 p m q₁ = F_z 1 p m q₂) ∧
    F_z 1 p m q = atLeastProb m ((m + 1) / 2) p := by
  have hconst : ∀ q₁ : ℚ, F_z 1 p m q₁ = tailSum m ((m + 1) / 2) p := by
    intro q₁
    rw [F_z_eq_tailSum, show (1 * p + (1 - 1) * q₁ : ℚ) = p by ring]
  refine ⟨?_, fun q₁ q₂ => by rw [hconst, hconst], by rw [hconst, atLeastProb_eq_tailSum]⟩
  rw [F_z_eq_tailSum, F_z_eq_tailSum]
  have hx0 : 0 ≤ z * p + (1 - z) * q := by
    have := mul_nonneg hz0 hp0
    have := mul_nonneg (by linarith : (0:ℚ) ≤ 1 - z) hq0
    linarith
  have hxy : z * p + (1 - z) * q ≤ z * p + (1 - z) * q' := by
    have := mul_nonneg (by linarith : (0:ℚ) ≤ 1 - z) (by linarith : (0:ℚ) ≤ q' - q)
    nlinarith
  have hy1 : z * p + (1 - z) * q' ≤ 1 := by nlinarith
  exact tailSum_mono m ((m + 1) / 2) hx0 hxy hy1

/-- Witness for C8 at concrete parameters `z = 1/2`, `p = 1/2`, `m = 3`,
`q = 0 ≤ q' = 1`: every hypothesis is discharged numerically and the
theorem is applied at these values. -/
theorem F_z_monotone_and_constant_at_z_one_witness :
    ((0:ℚ) ≤ 1/2 ∧ (1/2:ℚ) ≤ 1 ∧ (0:ℚ) ≤ 1/2 ∧ (1/2:ℚ) ≤ 1 ∧
      (0:ℚ) ≤ 0 ∧ (0:ℚ) ≤ 1 ∧ (1:ℚ) ≤ 1) ∧
    F_z (1/2) (1/2) 3 0 ≤ F_z (1/2) (1/2) 3 1 ∧
    (∀ q₁ q₂ : ℚ, F_z 1 (1/2) 3 q₁ = F_z 1 (1/2) 3 q₂) ∧
    F_z 1 (1/2) 3 0 = atLeastProb 3 ((3 + 1) / 2) (1/2) := by
  refine ⟨⟨by norm_num, by norm_num, by norm_num, by norm_num, le_refl _, by norm_num, le_refl _⟩, ?_⟩
  exact F_z_monotone_and_constant_at_z_one (1/2) (1/2) 3 0 1
    (by norm_num) (by norm_num) (by norm_num) (by norm_num) le_rfl (by norm_num) le_rfl

/-! ## RFIM flip and energy lemmas -/

lemma list_sum_eq_range_getD (l : List ℚ) :
    l.sum = ∑ i in Finset.range l.length, l.getD i 0 := by
  induction l with
  | nil => simp
  | cons a t ih =>
    rw [List.sum_cons, List.length_cons, Finset.sum_range_succ', ih]
    simp [add_comm]

lemma sum_range_update {n i : ℕ} (hi : i < n) (f f' : ℕ → ℚ)
    (hagree : ∀ j, j ≠ i → f' j = f j) :
    ∑ j in Finset.range n, f' j = (∑ j in Finset.range n, f j) + (f' i - f i) := by
  have hmem : i ∈ Finset.range n := Finset.mem_range.mpr hi
  rw [Finset.sum_eq_add_sum_diff_singleton hmem f', Finset.sum_eq_add_sum_diff_singleton hmem f]
  have he : ∑ j in Finset.range n \ {i}, f' j = ∑ j in Finset.range n \ {i}, f j := by
    refine Finset.sum_congr rfl fun j hj => ?_
    rw [Finset.mem_sdiff, Finset.mem_singleton] at hj
    exact hagree j hj.2
  rw [he]
  ring

lemma energy_set_eq (J F : ℚ) (N : ℕ) (hl S : List ℚ) (i : ℕ)
    (hi : i < S.length) (hN : ((N : ℚ) - 1) ≠ 0) :
    energyOf J F N hl (S.set i (-(S.getD i 0))) =
      energyOf J F N hl S +
        2 * S.getD i 0 *
          (hl.getD i 0 + F + J * ((S.sum - S.getD i 0) / ((N : ℚ) - 1))) := by
  have hlen : (S.set i (-(S.getD i 0))).length = S.length := List.length_set _ _ _
  have hA : ∑ j in Finset.range (S.set i (-(S.getD i 0))).length,
      (hl.getD j 0 + F) * (S.set i (-(S.getD i 0))).getD j 0 =
      (∑ j in Finset.range S.length, (hl.getD j 0 + F) * S.getD j 0)
        - 2 * (hl.getD i 0 + F) * S.getD i 0 := by
    rw [hlen, sum_range_update hi
      (fun j => (hl.getD j 0 + F) * S.getD j 0)
      (fun j => (hl.getD j 0 + F) * (S.set i (-(S.getD i 0))).getD j 0)
      (fun j hj => by
        show (hl.getD j 0 + F) * (S.set i (-(S.getD i 0))).getD j 0 =
          (hl.getD j 0 + F) * S.getD j 0
        rw [getD_set_other _ (fun e => hj e.symm)])]
    rw [getD_set_same _ hi]
    ring
  have hsum : (S.set i (-(S.getD i 0))).sum = S.sum - 2 * S.getD i 0 := by
    rw [list_sum_eq_range_getD, hlen,
      sum_range_update hi (fun j => S.getD j 0)
        (fun j => (S.set i (-(S.getD i 0))).getD j 0)
        (fun j hj => by
          show (S.set i (-(S.getD i 0))).getD j 0 = S.getD j 0
          rw [getD_set_other _ (fun e => hj e.symm)]),
      getD_set_same _ hi, ← list_sum_eq_range_getD]
    ring
  have hB : ∑ j in Finset.range (S.set i (-(S.getD i 0))).length,
      ((S.set i (-(S.getD i 0))).getD j 0) ^ 2 =
      ∑ j in Finset.range S.length, (S.getD j 0) ^ 2 := by
    rw [hlen, sum_range_update hi (fun j => (S.getD j 0) ^ 2)
      (fun j => ((S.set i (-(S.getD i 0))).getD j 0) ^ 2)
      (fun j hj => by
        show ((S.set i (-(S.getD i 0))).getD j 0) ^ 2 = (S.getD j 0) ^ 2
        rw [getD_set_other _ (fun e => hj e.symm)]),
      getD_set_same _ hi]
    ring
  rw [energyOf, energyOf, hA, hsum, hB]
  field_simp
  ring

lemma flip_eq_ite (st : RFIM) (i : ℕ) :
    st.flip i = if st.S.getD i 0 * npSign (st.p i) = -1
      then ({ st with S := st.S.set i (-(st.S.getD i 0)) }, 1) else (st, 0) := rfl

lemma flip_of_count_one (st : RFIM) (i : ℕ) (h1 : (st.flip i).2 = 1) :
    st.S.getD i 0 * npSign (st.p i) = -1 ∧
    (st.flip i).1 = { st with S := st.S.set i (-(st.S.getD i 0)) } := by
  by_cases hc : st.S.getD i 0 * npSign (st.p i) = -1
  · exact ⟨hc, by rw [flip_eq_ite, if_pos hc]⟩
  · rw [flip_eq_ite, if_neg hc] at h1
    simp at h1

lemma flip_of_count_zero (st : RFIM) (i : ℕ) (h0 : (st.flip i).2 = 0) :
    (st.flip i).1 = st := by
  by_cases hc : st.S.getD i 0 * npSign (st.p i) = -1
  · rw [flip_eq_ite, if_pos hc] at h0
    simp at h0
  · rw [flip_eq_ite, if_neg hc]

lemma flip_count_cases (st : RFIM) (i : ℕ) :
    (st.flip i).2 = 0 ∨ (st.flip i).2 = 1 := by
  by_cases hc : st.S.getD i 0 * npSign (st.p i) = -1
  · right; rw [flip_eq_ite, if_pos hc]
  · left; rw [flip_eq_ite, if_neg hc]

lemma flip_fields (st : RFIM) (i : ℕ) :
    (st.flip i).1.J = st.J ∧ (st.flip i).1.F = st.F ∧ (st.flip i).1.N = st.N ∧
    (st.flip i).1.h = st.h ∧ (st.flip i).1.delta = st.delta ∧
    (st.flip i).1.S.length = st.S.length := by
  by_cases hc : st.S.getD i 0 * npSign (st.p i) = -1
  · rw [flip_eq_ite, if_pos hc]
    exact ⟨rfl, rfl, rfl, rfl, rfl, List.length_set _ _ _⟩
  · rw [flip_eq_ite, if_neg hc]
    exact ⟨rfl, rfl, rfl, rfl, rfl, rfl⟩

lemma getD_mem_of_ne_zero {l : List ℚ} {i : ℕ} (h : l.getD i 0 ≠ 0) :
    i < l.length ∧ l.getD i 0 ∈ l := by
  rcases lt_or_le i l.length with hi | hi
  · exact ⟨hi, by rw [List.getD_eq_getElem l 0 hi]; exact List.getElem_mem hi⟩
  · exact absurd (List.getD_eq_default l 0 hi) h

lemma flip_valid (st : RFIM) (i : ℕ) (hv : ∀ x ∈ st.S, x = 1 ∨ x = -1) :
    ∀ x ∈ (st.flip i).1.S, x = 1 ∨ x = -1 := by
  rcases flip_count_cases st i with h | h
  · rw [flip_of_count_zero st i h]; exact hv
  · obtain ⟨hc, hst⟩ := flip_of_count_one st i h
    rw [hst]
    intro x hx
    rcases List.mem_or_eq_of_mem_set hx with hx' | hx'
    · exact hv x hx'
    · have hne : st.S.getD i 0 ≠ 0 := by
        intro h0; rw [h0, zero_mul] at hc; norm_num at hc
      obtain ⟨_, hmem⟩ := getD_mem_of_ne_zero hne
      rcases hv _ hmem with h1 | h1 <;> rw [hx', h1] <;> norm_num

lemma sp_neg_of_flip (st : RFIM) (i : ℕ)
    (hc : st.S.getD i 0 * npSign (st.p i) = -1) :
    st.S.getD i 0 * st.p i < 0 := by
  by_cases h1 : 0 < st.p i
  · rw [npSign, if_pos h1, mul_one] at hc
    rw [hc]
    linarith
  · by_cases h2 : st.p i < 0
    · rw [npSign, if_neg h1, if_pos h2] at hc
      have : st.S.getD i 0 = 1 := by linarith [hc]
      rw [this, one_mul]
      exact h2
    · rw [npSign, if_neg h1, if_neg h2, mul_zero] at hc
      norm_num at hc

lemma flip_energy_lt (st : RFIM) (i : ℕ) (hlen : st.S.length = st.N)
    (hN : 2 ≤ st.N) (h1 : (st.flip i).2 = 1) :
    (st.flip i).1.energy < st.energy := by
  obtain ⟨hc, hst⟩ := flip_of_count_one st i h1
  have hne : st.S.getD i 0 ≠ 0 := by
    intro h0; rw [h0, zero_mul] at hc; norm_num at hc
  obtain ⟨hi, _⟩ := getD_mem_of_ne_zero hne
  have hNne : ((st.N : ℚ) - 1) ≠ 0 := by
    have : (2 : ℚ) ≤ (st.N : ℚ) := by exact_mod_cast hN
    intro e
    nlinarith
  have hsp : st.S.getD i 0 * st.p i < 0 := sp_neg_of_flip st i hc
  have he : (st.flip i).1.energy = st.energy + 2 * st.S.getD i 0 * st.p i := by
    rw [hst]
    show energyOf st.J st.F st.N st.h (st.S.set i (-(st.S.getD i 0))) = _
    rw [energy_set_eq st.J st.F st.N st.h st.S i hi hNne]
    rfl
  rw [he]
  linarith

/-! ## Sweep lemmas -/

lemma sweepFrom_cons (st : RFIM) (i : ℕ) (t : List ℕ) :
    st.sweepFrom (i :: t) =
      (((st.flip i).1.sweepFrom t).1, (st.flip i).2 + ((st.flip i).1.sweepFrom t).2) := rfl

lemma sweepFrom_fields (l : List ℕ) : ∀ st : RFIM,
    (st.sweepFrom l).1.J = st.J ∧ (st.sweepFrom l).1.F = st.F ∧
    (st.sweepFrom l).1.N = st.N ∧ (st.sweepFrom l).1.h = st.h ∧
    (st.sweepFrom l).1.delta = st.delta ∧
    (st.sweepFrom l).1.S.length = st.S.length := by
  induction l with
  | nil => exact fun st => ⟨rfl, rfl, rfl, rfl, rfl, rfl⟩
  | cons i t ih =>
    intro st
    obtain ⟨a1, a2, a3, a4, a5, a6⟩ := ih (st.flip i).1
    obtain ⟨b1, b2, b3, b4, b5, b6⟩ := flip_fields st i
    rw [sweepFrom_cons]
    exact ⟨a1.trans b1, a2.trans b2, a3.trans b3, a4.trans b4, a5.trans b5, a6.trans b6⟩

lemma sweepFrom_valid (l : List ℕ) : ∀ st : RFIM,
    (∀ x ∈ st.S, x = 1 ∨ x = -1) → ∀ x ∈ (st.sweepFrom l).1.S, x = 1 ∨ x = -1 := by
  induction l with
  | nil => exact fun st hv => hv
  | cons i t ih =>
    intro st hv
    rw [sweepFrom_cons]
    exact ih (st.flip i).1 (flip_valid st i hv)

lemma sweepFrom_count_zero (l : List ℕ) : ∀ st : RFIM, (st.sweepFrom l).2 = 0 →
    (st.sweepFrom l).1 = st ∧ ∀ i ∈ l, (st.flip i).2 = 0 := by
  induction l with
  | nil => exact fun st _ => ⟨rfl, fun i hi => absurd hi (List.not_mem_nil i)⟩
  | cons i t ih =>
    intro st h0
    rw [sweepFrom_cons] at h0 ⊢
    have hfi : (st.flip i).2 = 0 := by omega
    have hti : ((st.flip i).1.sweepFrom t).2 = 0 := by omega
    have hfix := flip_of_count_zero st i hfi
    obtain ⟨h1, h2⟩ := ih (st.flip i).1 hti
    refine ⟨by rw [h1, hfix], fun j hj => ?_⟩
    rcases List.mem_cons.mp hj with hj | hj
    · rw [hj]; exact hfi
    · have := h2 j hj
      rwa [hfix] at this

lemma sweepFrom_energy (l : List ℕ) : ∀ st : RFIM,
    st.S.length = st.N → 2 ≤ st.N →
    (st.sweepFrom l).1.energy ≤ st.energy ∧
    ((st.sweepFrom l).2 ≠ 0 → (st.sweepFrom l).1.energy < st.energy) := by
  induction l with
  | nil => exact fun st _ _ => ⟨le_rfl, fun h => absurd rfl h⟩
  | cons i t ih =>
    intro st hlen hN
    rcases flip_count_cases st i with h | h
    · have hfix := flip_of_count_zero st i h
      obtain ⟨hle, hlt⟩ := ih st hlen hN
      rw [sweepFrom_cons, hfix, h]
      exact ⟨hle, fun hne => hlt (by omega)⟩
    · have hfields := flip_fields st i
      have hlen' : (st.flip i).1.S.length = (st.flip i).1.N := by
        rw [hfields.2.2.2.2.2, hfields.2.2.1, hlen]
      have hN' : 2 ≤ (st.flip i).1.N := by rw [hfields.2.2.1]; exact hN
      obtain ⟨hle, hlt⟩ := ih (st.flip i).1 hlen' hN'
      have hE := flip_energy_lt st i hlen hN h
      rw [sweepFrom_cons]
      exact ⟨le_trans hle (le_of_lt hE), fun _ => lt_of_le_of_lt hle hE⟩

/-! ## Termination of `equilibrate` -/

lemma encodeSpins_inj {n : ℕ} {S T : List ℚ} (hS : S.length = n) (hT : T.length = n)
    (hvS : ∀ x ∈ S, x = 1 ∨ x = -1) (hvT : ∀ x ∈ T, x = 1 ∨ x = -1)
    (h : encodeSpins n S = encodeSpins n T) : S = T := by
  apply List.ext_getElem (hS.trans hT.symm)
  intro i h1 h2
  have hi : i < n := by omega
  have he := congrFun h ⟨i, hi⟩
  simp only [encodeSpins] at he
  rw [decide_eq_decide] at he
  have hSg : S.getD i 0 = S[i] := List.getD_eq_getElem S 0 h1
  have hTg : T.getD i 0 = T[i] := List.getD_eq_getElem T 0 h2
  rw [hSg, hTg] at he
  rcases hvS S[i] (List.getElem_mem h1) with e1 | e1 <;>
    rcases hvT T[i] (List.getElem_mem h2) with e2 | e2
  · rw [e1, e2]
  · rw [e1, e2] at he
    norm_num at he
  · rw [e1, e2] at he
    norm_num at he
  · rw [e1, e2]

lemma sweep_iterates_reach_fixpoint (gN : ℕ) (st : RFIM) (hwf : st.WF) :
    ∃ k, k ≤ 2 ^ st.N ∧
      (RFIM.sweep gN ((fun s => (RFIM.sweep gN s).1)^[k] st)).2 = 0 := by
  set f : RFIM → RFIM := fun s => (RFIM.sweep gN s).1 with hf
  obtain ⟨hlen, hh, hN2, hval⟩ := hwf
  have hInv : ∀ k : ℕ, (f^[k] st).J = st.J ∧ (f^[k] st).F = st.F ∧
      (f^[k] st).N = st.N ∧ (f^[k] st).h = st.h ∧ (f^[k] st).delta = st.delta ∧
      (f^[k] st).S.length = st.N ∧ (∀ x ∈ (f^[k] st).S, x = 1 ∨ x = -1) := by
    intro k
    induction k with
    | zero => exact ⟨rfl, rfl, rfl, rfl, rfl, hlen, hval⟩
    | succ k ih =>
      obtain ⟨i1, i2, i3, i4, i5, i6, i7⟩ := ih
      rw [Function.iterate_succ_apply']
      obtain ⟨a1, a2, a3, a4, a5, a6⟩ := sweepFrom_fields (List.range gN) (f^[k] st)
      exact ⟨a1.trans i1, a2.trans i2, a3.trans i3, a4.trans i4, a5.trans i5,
        a6.trans i6, sweepFrom_valid (List.range gN) (f^[k] st) i7⟩
  by_contra hcon
  push_neg at hcon
  have hdec : ∀ k, k ≤ 2 ^ st.N → (f^[k + 1] st).energy < (f^[k] st).energy := by
    intro k hk
    obtain ⟨_, _, i3, _, _, i6, _⟩ := hInv k
    have hstep := (sweepFrom_energy (List.range gN) (f^[k] st)
      (by rw [i6, i3]) (by rw [i3]; exact hN2)).2 (hcon k hk)
    rw [Function.iterate_succ_apply']
    exact hstep
  have hchain : ∀ k l : ℕ, k < l → l ≤ 2 ^ st.N + 1 →
      (f^[l] st).energy < (f^[k] st).energy := by
    intro k l
    induction l with
    | zero => omega
    | succ l ihl =>
      intro hkl hle
      rcases Nat.lt_succ_iff_lt_or_eq.mp hkl with h | h
      · exact lt_trans (hdec l (by omega)) (ihl h (by omega))
      · subst h
        exact hdec k (by omega)
  have key : ∀ a b : Fin (2 ^ st.N + 2), (a : ℕ) < (b : ℕ) →
      encodeSpins st.N ((f^[(a : ℕ)] st).S) = encodeSpins st.N ((f^[(b : ℕ)] st).S) →
      False := by
    intro a b hab henc
    obtain ⟨a1, a2, a3, a4, a5, a6, a7⟩ := hInv (a : ℕ)
    obtain ⟨b1, b2, b3, b4, b5, b6, b7⟩ := hInv (b : ℕ)
    have hSeq : (f^[(a : ℕ)] st).S = (f^[(b : ℕ)] st).S :=
      encodeSpins_inj a6 b6 a7 b7 henc
    have hEeq : (f^[(a : ℕ)] st).energy = (f^[(b : ℕ)] st).energy := by
      unfold RFIM.energy energyOf
      rw [hSeq, a1, b1, a2, b2, a3, b3, a4, b4]
    have hlt := hchain (a : ℕ) (b : ℕ) hab (by omega)
    linarith
  have hinj : Function.Injective
      (fun k : Fin (2 ^ st.N + 2) => encodeSpins st.N ((f^[(k : ℕ)] st).S)) := by
    intro k l he
    by_contra hne
    rcases Nat.lt_or_ge (k : ℕ) (l : ℕ) with h | h
    · exact key k l h he
    · rcases Nat.lt_or_ge (l : ℕ) (k : ℕ) with h' | h'
      · exact key l k h' he.symm
      · exact hne (Fin.ext (by omega))
  have hcard := Fintype.card_le_of_injective _ hinj
  simp only [Fintype.card_fin, Fintype.card_fun, Fintype.card_bool] at hcard
  omega

lemma equilibrate_succ (gN fuel : ℕ) (st : RFIM) :
    RFIM.equilibrate gN (fuel + 1) st =
      if (RFIM.sweep gN st).2 = 0 then some (RFIM.sweep gN st).1
      else RFIM.equilibrate gN fuel (RFIM.sweep gN st).1 := rfl

lemma equilibrate_of_fixpoint (gN : ℕ) : ∀ fuel (st : RFIM),
    (∃ k, k < fuel ∧ (RFIM.sweep gN ((fun s => (RFIM.sweep gN s).1)^[k] st)).2 = 0) →
    ∃ st', RFIM.equilibrate gN fuel st = some st' ∧ RFIM.sweep gN st' = (st', 0) := by
  intro fuel
  induction fuel with
  | zero => rintro st ⟨k, hk, _⟩; omega
  | succ fuel ih =>
    rintro st ⟨k, hk, hzero⟩
    by_cases h0 : (RFIM.sweep gN st).2 = 0
    · have hfix : (RFIM.sweep gN st).1 = st :=
        (sweepFrom_count_zero (List.range gN) st h0).1
      refine ⟨(RFIM.sweep gN st).1, by rw [equilibrate_succ, if_pos h0], ?_⟩
      rw [hfix]
      have hpair : RFIM.sweep gN st = ((RFIM.sweep gN st).1, (RFIM.sweep gN st).2) := rfl
      rw [hpair, hfix, h0]
    · have hk0 : k ≠ 0 := by
        rintro rfl
        exact h0 (by simpa using hzero)
      obtain ⟨k', rfl⟩ := Nat.exists_eq_succ_of_ne_zero hk0
      have hshift : (RFIM.sweep gN
          ((fun s => (RFIM.sweep gN s).1)^[k'] ((RFIM.sweep gN st).1))).2 = 0 := by
        have hit := hzero
        rw [Function.iterate_succ_apply] at hit
        exact hit
      obtain ⟨st', h1, h2⟩ := ih (RFIM.sweep gN st).1 ⟨k', by omega, hshift⟩
      exact ⟨st', by rw [equilibrate_succ, if_neg h0]; exact h1, h2⟩

lemma equilibrate_inv (gN : ℕ) : ∀ fuel (st st' : RFIM),
    RFIM.equilibrate gN fuel st = some st' →
    st'.J = st.J ∧ st'.F = st.F ∧ st'.N = st.N ∧ st'.h = st.h ∧
    st'.S.length = st.S.length ∧
    ((∀ x ∈ st.S, x = 1 ∨ x = -1) → ∀ x ∈ st'.S, x = 1 ∨ x = -1) := by
  intro fuel
  induction fuel with
  | zero =>
    intro st st' h
    exact absurd h (by rw [show RFIM.equilibrate gN 0 st = none from rfl]; simp)
  | succ fuel ih =>
    intro st st' h
    rw [equilibrate_succ] at h
    obtain ⟨a1, a2, a3, a4, _, a6⟩ := sweepFrom_fields (List.range gN) st
    by_cases h0 : (RFIM.sweep gN st).2 = 0
    · rw [if_pos h0] at h
      have hst' : (RFIM.sweep gN st).1 = st' := Option.some.inj h
      rw [← hst']
      exact ⟨a1, a2, a3, a4, a6, fun hv => sweepFrom_valid (List.range gN) st hv⟩
    · rw [if_neg h0] at h
      obtain ⟨b1, b2, b3, b4, b5, b6⟩ := ih (RFIM.sweep gN st).1 st' h
      exact ⟨b1.trans a1, b2.trans a2, b3.trans a3, b4.trans a4, b5.trans a6,
        fun hv => b6 (sweepFrom_valid (List.range gN) st hv)⟩

/-- C3: `equilibrate` terminates — fuel `2^N + 1` always suffices, since
each sweep with a positive flip count strictly decreases the Ising
energy, so the (at most `2^N`) distinct spin configurations bound the
number of productive sweeps — and in the state in which it returns, an
immediate further call to `sweep` (with the same loop bound as the one
`equilibrate` used) performs zero flips and leaves the state unchanged. -/
theorem rfim_relax_terminates_and_is_idempotent (gN : ℕ) (st : RFIM)
    (hwf : st.WF) (hg : gN ≤ st.N) :
    ∃ st', RFIM.equilibrate gN (2 ^ st.N + 1) st = some st' ∧
      RFIM.sweep gN st' = (st', 0) := by
  obtain ⟨k, hk, h0⟩ := sweep_iterates_reach_fixpoint gN st hwf
  exact equilibrate_of_fixpoint gN (2 ^ st.N + 1) st ⟨k, by omega, h0⟩

/-- Witness for C3 at a concrete well-formed two-agent state. -/
theorem rfim_relax_terminates_and_is_idempotent_witness :
    (rfimEq.WF ∧ 2 ≤ rfimEq.N) ∧
    ∃ st', RFIM.equilibrate 2 (2 ^ rfimEq.N + 1) rfimEq = some st' ∧
      RFIM.sweep 2 st' = (st', 0) := by
  have hwf : rfimEq.WF := by
    refine ⟨rfl, rfl, by norm_num [rfimEq], ?_⟩
    intro x hx
    simp only [rfimEq, List.mem_cons, List.not_mem_nil, or_false] at hx
    rcases hx with h | h <;> subst h <;> norm_num
  exact ⟨⟨hwf, by norm_num [rfimEq]⟩,
    rfim_relax_terminates_and_is_idempotent 2 rfimEq hwf (by norm_num [rfimEq])⟩

/-- C7, amended: in the decoupled limit `J = 0`, after `equilibrate`
returns, every agent whose field is nonzero sits at `sign(h[i] + F)`;
an agent with `h[i] + F = 0` keeps its current opinion instead (the
claim's unconditional "exactly `sign(h[i]+F)`" fails there, since
`np.sign(0) = 0` is never an opinion). -/
theorem rfim_decoupled_equilibrium_matches_field_sign (st : RFIM)
    (hwf : st.WF) (hJ : st.J = 0) :
    ∃ st', RFIM.equilibrate st.N (2 ^ st.N + 1) st = some st' ∧
      ∀ i, i < st.N → st.h.getD i 0 + st.F ≠ 0 →
        st'.S.getD i 0 = npSign (st.h.getD i 0 + st.F) := by
  obtain ⟨k, hk, h0⟩ := sweep_iterates_reach_fixpoint st.N st hwf
  obtain ⟨st', h1, h2⟩ := equilibrate_of_fixpoint st.N (2 ^ st.N + 1) st ⟨k, by omega, h0⟩
  obtain ⟨e1, e2, e3, e4, e5, e6⟩ := equilibrate_inv st.N (2 ^ st.N + 1) st st' h1
  obtain ⟨hlen, hh, hN2, hval⟩ := hwf
  refine ⟨st', h1, ?_⟩
  intro i hi hne
  have hcnt : (st'.sweepFrom (List.range st.N)).2 = 0 := congrArg Prod.snd h2
  have hfi : (st'.flip i).2 = 0 :=
    (sweepFrom_count_zero (List.range st.N) st' hcnt).2 i (List.mem_range.mpr hi)
  have hcond : ¬ (st'.S.getD i 0 * npSign (st'.p i) = -1) := by
    intro hc
    have h1' : (st'.flip i).2 = 1 := by rw [flip_eq_ite, if_pos hc]
    omega
  have hp : st'.p i = st.h.getD i 0 + st.F := by
    simp only [RFIM.p]
    rw [e4, e2, e1, hJ, zero_mul, add_zero]
  have hi' : i < st'.S.length := by rw [e5, hlen]; exact hi
  have hmem : st'.S.getD i 0 ∈ st'.S := by
    rw [List.getD_eq_getElem st'.S 0 hi']
    exact List.getElem_mem hi'
  have hvS' := e6 hval _ hmem
  have hsign : npSign (st.h.getD i 0 + st.F) = 1 ∨ npSign (st.h.getD i 0 + st.F) = -1 := by
    rcases lt_trichotomy 0 (st.h.getD i 0 + st.F) with h | h | h
    · left; rw [npSign, if_pos h]
    · exact absurd h.symm hne
    · right; rw [npSign, if_neg (by linarith), if_pos (by linarith)]
  rw [hp] at hcond
  rcases hvS' with hS | hS <;> rcases hsign with hn | hn
  · rw [hS, hn]
  · exfalso; apply hcond; rw [hS, hn]; norm_num
  · exfalso; apply hcond; rw [hS, hn]; norm_num
  · rw [hS, hn]

/-- C7, counterexample to the claim as stated: in the decoupled
two-agent state `rfimZeroField`, agent `0` has `h[0] + F = 0`; after
`Relax()` its opinion is `+1` (its initial value), while
`sign(h[0] + F) = sign(0) = 0`, so the equilibrium opinion is *not*
`sign(h[i] + F)` for every agent. -/
theorem rfim_zero_field_agent_keeps_opinion :
    RFIM.equilibrate 2 (2 ^ rfimZeroField.N + 1) rfimZeroField =
      some { rfimZeroField with S := [1, 1] } ∧
    ({ rfimZeroField with S := [1, 1] } : RFIM).S.getD 0 0 = 1 ∧
    npSign (rfimZeroField.h.getD 0 0 + rfimZeroField.F) = 0 := by
  have hs1 : RFIM.sweep 2 rfimZeroField = ({ rfimZeroField with S := [1, 1] }, 1) := by
    norm_num [RFIM.sweep, RFIM.sweepFrom, RFIM.flip, RFIM.p, npSign, rfimZeroField,
      List.range_succ]
  have hs2 : RFIM.sweep 2 ({ rfimZeroField with S := [1, 1] } : RFIM) =
      ({ rfimZeroField with S := [1, 1] }, 0) := by
    norm_num [RFIM.sweep, RFIM.sweepFrom, RFIM.flip, RFIM.p, npSign, rfimZeroField,
      List.range_succ]
  refine ⟨?_, by norm_num [rfimZeroField], by norm_num [rfimZeroField, npSign]⟩
  have hN : 2 ^ rfimZeroField.N + 1 = 4 + 1 := by norm_num [rfimZeroField]
  rw [hN, equilibrate_succ, hs1]
  norm_num
  rw [show (4 : ℕ) = 3 + 1 from rfl, equilibrate_succ, hs2]
  simp

/-- Witness for the amended C7 at a concrete decoupled state. -/
theorem rfim_decoupled_equilibrium_matches_field_sign_witness :
    (rfimZeroField.WF ∧ rfimZeroField.J = 0) ∧
    ∃ st', RFIM.equilibrate rfimZeroField.N (2 ^ rfimZeroField.N + 1) rfimZeroField =
        some st' ∧
      ∀ i, i < rfimZeroField.N → rfimZeroField.h.getD i 0 + rfimZeroField.F ≠ 0 →
        st'.S.getD i 0 = npSign (rfimZeroField.h.getD i 0 + rfimZeroField.F) := by
  have hwf : rfimZeroField.WF := by
    refine ⟨rfl, rfl, by norm_num [rfimZeroField], ?_⟩
    intro x hx
    simp only [rfimZeroField, List.mem_cons, List.not_mem_nil, or_false] at hx
    rcases hx with h | h <;> subst h <;> norm_num
  exact ⟨⟨hwf, rfl⟩,
    rfim_decoupled_equilibrium_matches_field_sign rfimZeroField hwf rfl⟩

/-! ## Fixed-point solver lemmas -/

lemma bisect_succ (f : ℚ → ℚ) (a b : ℚ) (d : ℕ) :
    bisect f a b (d + 1) =
      if f a * f ((a + b) / 2) ≤ 0 then bisect f a ((a + b) / 2) d
      else bisect f ((a + b) / 2) b d := rfl

lemma bisect_mem (f : ℚ → ℚ) : ∀ (d : ℕ) (a b : ℚ),
    min a b ≤ bisect f a b d ∧ bisect f a b d ≤ max a b := by
  intro d
  induction d with
  | zero =>
    intro a b
    constructor
    · have h1 : min a b ≤ a := min_le_left _ _
      have h2 : min a b ≤ b := min_le_right _ _
      show min a b ≤ (a + b) / 2
      linarith
    · have h1 : a ≤ max a b := le_max_left _ _
      have h2 : b ≤ max a b := le_max_right _ _
      show (a + b) / 2 ≤ max a b
      linarith
  | succ d ih =>
    intro a b
    have hcl : min a b ≤ (a + b) / 2 := by
      have h1 : min a b ≤ a := min_le_left _ _
      have h2 : min a b ≤ b := min_le_right _ _
      linarith
    have hcu : (a + b) / 2 ≤ max a b := by
      have h1 : a ≤ max a b := le_max_left _ _
      have h2 : b ≤ max a b := le_max_right _ _
      linarith
    rw [bisect_succ]
    by_cases h : f a * f ((a + b) / 2) ≤ 0
    · rw [if_pos h]
      obtain ⟨i1, i2⟩ := ih a ((a + b) / 2)
      exact ⟨le_trans (le_min (min_le_left _ _) hcl) i1,
        le_trans i2 (max_le (le_max_left _ _) hcu)⟩
    · rw [if_neg h]
      obtain ⟨i1, i2⟩ := ih ((a + b) / 2) b
      exact ⟨le_trans (le_min hcl (min_le_right _ _)) i1,
        le_trans i2 (max_le hcu (le_max_right _ _))⟩

/-- C6: `fixed_point` iterates `F_z` for exactly `n_its` rounds from `0`
and from `1`, then root-finds `F_z(q) - q` on the bracket
`[q_0 + 0.1, q_1 - 0.1]`; it fails exactly when the bracket endpoints do
not enclose a sign change (`f(a)·f(b) > 0`), and otherwise returns
`(q_0, q_1, q_mid)` with the first two components the boundary iterates
and `q_mid` the located root, which lies inside the bracket. -/
theorem fixed_point_bracket_characterisation (z p : ℚ) (m n_its : ℕ) :
    (fixed_point z p m n_its = Except.error () ↔
      0 < (F_z z p m ((fun q => F_z z p m q)^[n_its] 0 + 1 / 10) -
            ((fun q => F_z z p m q)^[n_its] 0 + 1 / 10)) *
          (F_z z p m ((fun q => F_z z p m q)^[n_its] 1 - 1 / 10) -
            ((fun q => F_z z p m q)^[n_its] 1 - 1 / 10))) ∧
    ∀ t : ℚ × ℚ × ℚ, fixed_point z p m n_its = Except.ok t →
      t.1 = (fun q => F_z z p m q)^[n_its] 0 ∧
      t.2.1 = (fun q => F_z z p m q)^[n_its] 1 ∧
      min (t.1 + 1 / 10) (t.2.1 - 1 / 10) ≤ t.2.2 ∧
      t.2.2 ≤ max (t.1 + 1 / 10) (t.2.1 - 1 / 10) := by
  set q0 : ℚ := (fun q => F_z z p m q)^[n_its] 0 with hq0
  set q1 : ℚ := (fun q => F_z z p m q)^[n_its] 1 with hq1
  by_cases h : 0 < (F_z z p m (q0 + 1 / 10) - (q0 + 1 / 10)) *
      (F_z z p m (q1 - 1 / 10) - (q1 - 1 / 10))
  · have hb : brentqModel (fun q => F_z z p m q - q) (q0 + 1 / 10) (q1 - 1 / 10) =
        Except.error () := by
      rw [brentqModel, if_pos h]
    have hfp : fixed_point z p m n_its = Except.error () := by
      show (match brentqModel (fun q => F_z z p m q - q) (q0 + 1 / 10) (q1 - 1 / 10) with
        | Except.error e => Except.error e
        | Except.ok q_mid => Except.ok (q0, q1, q_mid)) = Except.error ()
      rw [hb]
    refine ⟨⟨fun _ => h, fun _ => hfp⟩, fun t ht => ?_⟩
    rw [hfp] at ht
    simp at ht
  · have hb : brentqModel (fun q => F_z z p m q - q) (q0 + 1 / 10) (q1 - 1 / 10) =
        Except.ok (bisect (fun q => F_z z p m q - q) (q0 + 1 / 10) (q1 - 1 / 10) 30) := by
      rw [brentqModel, if_neg h]
    have hfp : fixed_point z p m n_its =
        Except.ok (q0, q1, bisect (fun q => F_z z p m q - q) (q0 + 1 / 10) (q1 - 1 / 10) 30) := by
      show (match brentqModel (fun q => F_z z p m q - q) (q0 + 1 / 10) (q1 - 1 / 10) with
        | Except.error e => Except.error e
        | Except.ok q_mid => Except.ok (q0, q1, q_mid)) = _
      rw [hb]
    refine ⟨⟨fun he => ?_, fun hh => absurd hh h⟩, fun t ht => ?_⟩
    · rw [hfp] at he
      simp at he
    · rw [hfp] at ht
      obtain rfl := (Except.ok.inj ht).symm
      exact ⟨rfl, rfl,
        (bisect_mem (fun q => F_z z p m q - q) 30 (q0 + 1 / 10) (q1 - 1 / 10)).1,
        (bisect_mem (fun q => F_z z p m q - q) 30 (q0 + 1 / 10) (q1 - 1 / 10)).2⟩

/-- Witness for C6 at `z = 0`, `p = 1/2`, `m = 1`, where `F_z` is the
identity map, the bracket is `[0.1, 0.9]` and the root-find succeeds. -/
theorem fixed_point_bracket_characterisation_witness :
    ∃ t : ℚ × ℚ × ℚ, fixed_point 0 (1/2) 1 2 = Except.ok t ∧
      (t.1 = (fun q => F_z 0 (1/2) 1 q)^[2] 0 ∧
       t.2.1 = (fun q => F_z 0 (1/2) 1 q)^[2] 1 ∧
       min (t.1 + 1 / 10) (t.2.1 - 1 / 10) ≤ t.2.2 ∧
       t.2.2 ≤ max (t.1 + 1 / 10) (t.2.1 - 1 / 10)) := by
  have hFq : ∀ x : ℚ, F_z 0 (1/2) 1 x = x := by
    intro x
    simp [F_z, Finset.sum_Ico_eq_sum_range]
  have hfr : ∀ x : ℚ, F_z 0 (1/2) 1 x - x = 0 := fun x => by rw [hFq x]; ring
  have hcond : ¬ (0 < (F_z 0 (1/2) 1 ((fun q => F_z 0 (1/2) 1 q)^[2] 0 + 1 / 10) -
        ((fun q => F_z 0 (1/2) 1 q)^[2] 0 + 1 / 10)) *
      (F_z 0 (1/2) 1 ((fun q => F_z 0 (1/2) 1 q)^[2] 1 - 1 / 10) -
        ((fun q => F_z 0 (1/2) 1 q)^[2] 1 - 1 / 10))) := by
    rw [hfr, hfr]
    norm_num
  have hb : brentqModel (fun q => F_z 0 (1/2) 1 q - q)
      ((fun q => F_z 0 (1/2) 1 q)^[2] 0 + 1 / 10)
      ((fun q => F_z 0 (1/2) 1 q)^[2] 1 - 1 / 10) =
      Except.ok (bisect (fun q => F_z 0 (1/2) 1 q - q)
        ((fun q => F_z 0 (1/2) 1 q)^[2] 0 + 1 / 10)
        ((fun q => F_z 0 (1/2) 1 q)^[2] 1 - 1 / 10) 30) := by
    rw [brentqModel, if_neg hcond]
  have ht : fixed_point 0 (1/2) 1 2 =
      Except.ok ((fun q => F_z 0 (1/2) 1 q)^[2] 0, (fun q => F_z 0 (1/2) 1 q)^[2] 1,
        bisect (fun q => F_z 0 (1/2) 1 q - q)
          ((fun q => F_z 0 (1/2) 1 q)^[2] 0 + 1 / 10)
          ((fun q => F_z 0 (1/2) 1 q)^[2] 1 - 1 / 10) 30) := by
    show (match brentqModel (fun q => F_z 0 (1/2) 1 q - q)
        ((fun q => F_z 0 (1/2) 1 q)^[2] 0 + 1 / 10)
        ((fun q => F_z 0 (1/2) 1 q)^[2] 1 - 1 / 10) with
      | Except.error e => Except.error e
      | Except.ok q_mid => Except.ok ((fun q => F_z 0 (1/2) 1 q)^[2] 0,
          (fun q => F_z 0 (1/2) 1 q)^[2] 1, q_mid)) = _
    rw [hb]
  exact ⟨_, ht, (fixed_point_bracket_characterisation 0 (1/2) 1 2).2 _ ht⟩
